import Mathlib

/-!
# Verification of the PAL (Prompt Assembly Language) repository

Shallow embedding of the PAL compilation pipeline and its command-line
surface, with theorems settling the behavioural claims about the code.

Embedded directly from the source:
* `src/pal/exceptions/core.py` — the domain-error taxonomy (`PALError` and
  its subclasses, each carrying a message and a structured context mapping);
* `src/pal/cli/main.py` — the CLI error handler `handle_error`, the shared
  try/except wrapper of every command, the `--vars-file`/`--vars` variable
  merging of `compile` and `execute`, and the per-file bookkeeping of the
  `validate` command.

The core modules `pal/core/executor.py` and `pal/core/resolver.py` are not
part of the available sources (only their tests and callers are), so the
`PromptExecutor` and `Resolver` definitions below are modelled from the
specification, as flagged in their doc comments.
-/

namespace PAL

/-! ## Exceptions (`src/pal/exceptions/core.py`)

The Python module defines a class hierarchy rooted at `PALError`.  We embed
the classes as an enumeration together with the superclass relation read off
the source's `class C(B)` headers. -/

/-- The exception classes declared in `src/pal/exceptions/core.py`. -/
inductive PALErrorClass where
  | palError
  | palValidationError
  | palLoadError
  | palResolverError
  | palCompilerError
  | palExecutorError
  | palCircularDependencyError
  | palMissingVariableError
  | palMissingComponentError
deriving DecidableEq, BEq, Repr

/-- The direct superclass of each exception class, read off the
`class C(B)` headers of `src/pal/exceptions/core.py` (`PALError` itself
derives from Python's `Exception`, outside the domain hierarchy). -/
def superclass : PALErrorClass → Option PALErrorClass
  | .palError => none
  | .palValidationError => some .palError
  | .palLoadError => some .palError
  | .palResolverError => some .palError
  | .palCompilerError => some .palError
  | .palExecutorError => some .palError
  | .palCircularDependencyError => some .palResolverError
  | .palMissingVariableError => some .palCompilerError
  | .palMissingComponentError => some .palCompilerError

/-- The superclass chain of a class, computed by iterating `superclass`
(the hierarchy has depth at most 3, so fuel 8 is ample). -/
def ancestorsAux : Nat → PALErrorClass → List PALErrorClass
  | 0, c => [c]
  | n + 1, c =>
    c :: (match superclass c with
          | none => []
          | some p => ancestorsAux n p)

/-- All classes a given class derives from, itself included. -/
def ancestors (c : PALErrorClass) : List PALErrorClass :=
  ancestorsAux 8 c

/-- `isSubclass c d` models Python's `issubclass(c, d)` restricted to the
PAL hierarchy. -/
def isSubclass (c d : PALErrorClass) : Bool :=
  (ancestors c).contains d

/-- A raised PAL domain exception: its class, its message (Python's
`str(error)`, set by `super().__init__(message)`), and its structured
context mapping (`self.context`). -/
structure PALExc where
  cls : PALErrorClass
  message : String
  context : List (String × String)
deriving DecidableEq, Repr

/-- `PALError.__init__(self, message, context=None)` from
`src/pal/exceptions/core.py`: `self.context = context or {}` replaces both
an omitted/`None` argument and a falsy (empty) mapping by the empty
mapping. -/
def mkPALError (cls : PALErrorClass) (message : String)
    (context : Option (List (String × String))) : PALExc :=
  { cls := cls
    message := message
    context :=
      match context with
      | none => []
      | some c => if c.isEmpty then [] else c }

/-- A Python `except H` clause catches an exception exactly when the
exception's class is `H` or a subclass of it. -/
def catchesExc (handler : PALErrorClass) (e : PALExc) : Bool :=
  isSubclass e.cls handler

/-! ## CLI error handling (`src/pal/cli/main.py`)

Every CLI command wraps its body in `try: ... except Exception as e:
handle_error(e); sys.exit(1)`.  We embed `handle_error` as the list of
lines it prints (rich markup dropped) and the wrapper as a function from
the body's outcome to the printed lines and the process exit code. -/

/-- An exception escaping a command body: either a PAL domain error
(`isinstance(error, PALError)`) or any other exception. -/
inductive PyExc where
  | pal (e : PALExc)
  | other (msg : String)
deriving DecidableEq, Repr

/-- `handle_error` from `src/pal/cli/main.py`: a domain error prints its
message and, when the context mapping is non-empty, a `Context:` header
followed by one `  key: value` line per context entry; any other exception
prints a single generic line. -/
def handle_error : PyExc → List String
  | .pal err =>
    ("Error: " ++ err.message) ::
      (if err.context.isEmpty then []
       else "Context:" :: err.context.map (fun kv => "  " ++ kv.1 ++ ": " ++ kv.2))
  | .other msg => ["Unexpected error: " ++ msg]

/-- The `try`/`except` wrapper shared by the `compile`, `execute`,
`validate`, `info` and `evaluate` commands: a body that completes returns
exit code 0; an escaping exception is passed to `handle_error` and the
process exits with code 1 (`sys.exit(1)`). -/
def runCommand (body : Except PyExc Unit) : List String × Nat :=
  match body with
  | .ok _ => ([], 0)
  | .error e => (handle_error e, 1)

/-! ## CLI variable loading (`compile` and `execute` commands)

Both commands build `variables: Dict[str, Any] = {}`, then
`variables.update(json.load(vars_file))` when `--vars-file` is given, then
`variables.update(json.loads(vars))` when `--vars` is given.  Dictionaries
are embedded by their lookup function. -/

/-- Python's `dict.update`: keys of the update win over existing keys. -/
def dictUpdate {V : Type} (d u : String → Option V) : String → Option V :=
  fun k =>
    match u k with
    | some v => some v
    | none => d k

/-- The variable-loading sequence of the `compile` and `execute` commands:
start from the empty dict, fold in the `--vars-file` contents, then the
`--vars` JSON string. -/
def load_cli_variables {V : Type} (varsFile varsArg : Option (String → Option V)) :
    String → Option V :=
  let varMap : String → Option V := fun _ => none
  let varMap :=
    match varsFile with
    | none => varMap
    | some f => dictUpdate varMap f
  match varsArg with
  | none => varMap
  | some a => dictUpdate varMap a

/-! ## CLI `validate` command (`src/pal/cli/main.py`)

For each checked file the command records a status string and whether the
file counts as valid; at the end it exits with code 1 iff
`valid_files < total_files`.  The loader's and compiler's per-file results
(which live outside the available sources) enter as the `PalFileOutcome`
of each file. -/

/-- What loading and analysing one checked file produced: an assembly that
loaded, with the placeholder names found in its templates and its declared
variable names; a library that loaded; or a load failure. -/
inductive PalFileOutcome where
  | assemblyOk (templateVars definedVars : List String)
  | libraryOk
  | loadFailed (errMsg : String)
deriving DecidableEq, Repr

/-- `template_vars - defined_vars - {"loop", "super"}` from the `validate`
command: placeholder names that are not declared variables and not Jinja
builtins. -/
def undefinedVars (templateVars definedVars : List String) : List String :=
  templateVars.filter
    (fun v => !(definedVars.contains v) && !(v == "loop") && !(v == "super"))

/-- The status string the `validate` command puts in its results table for
one file (rich markup dropped). -/
def fileStatus : PalFileOutcome → String
  | .assemblyOk tv dv =>
    if (undefinedVars tv dv).isEmpty then "Valid" else "Warning"
  | .libraryOk => "Valid"
  | .loadFailed _ => "Invalid"

/-- Whether the `validate` command increments `valid_files` for one file:
only for a loaded library, or a loaded assembly with no undefined template
variables. -/
def fileCountsValid : PalFileOutcome → Bool
  | .assemblyOk tv dv => (undefinedVars tv dv).isEmpty
  | .libraryOk => true
  | .loadFailed _ => false

/-- The exit code of the `validate` command when no exception escapes:
`sys.exit(1)` iff `valid_files < total_files`, else 0. -/
def validateExitCode (files : List PalFileOutcome) : Nat :=
  let valid := (files.filter (fun f => fileCountsValid f)).length
  if valid < files.length then 1 else 0

/-! ## Executor

`pal/core/executor.py` (class `PromptExecutor`) is not among the available
sources — only its test suite `tests/test_executor_comprehensive.py` and its
CLI callers are — so the definitions in this section are modelled from the
specification (§4.4 Executor), with record and log names corroborated by the
tests. -/

/-- The mapping returned by the model-calling collaborator's `generate`
capability: response text, optional token counts, finish reason. -/
structure GenResponse where
  response : String
  input_tokens : Option Nat
  output_tokens : Option Nat
  finish_reason : String
deriving DecidableEq, Repr

/-- Modelled from the spec: the `ExecutionResult` record of §3 built by
`PromptExecutor.execute` (`pal/core/executor.py` is missing from the
sources).  The wall-clock fields (`execution_time_ms`, `timestamp`) and the
free-form metadata are outside the embedding. -/
structure ExecutionResult where
  prompt_id : String
  prompt_version : String
  model : String
  compiled_prompt : String
  response : String
  success : Bool
  error : Option String
  input_tokens : Option Nat
  output_tokens : Option Nat
  estimated_cost : Option ℚ
deriving DecidableEq, Repr

/-- Modelled from the spec: the state of a `PromptExecutor` instance — an
optional audit-log target and the in-process execution history it owns. -/
structure PromptExecutor where
  log_file : Option String
  execution_history : List ExecutionResult
deriving DecidableEq, Repr

/-- Modelled from the spec: the executor's known pricing table, keyed by
model name, with per-1000-token input and output rates (entries and rates
as exercised by `tests/test_executor_comprehensive.py`). -/
def pricing_table : List (String × ℚ × ℚ) :=
  [("gpt-4", 3 / 100, 6 / 100),
   ("gpt-3.5-turbo", 1 / 2000, 3 / 2000),
   ("claude-3-opus-20240229", 3 / 200, 3 / 40),
   ("claude-3-sonnet-20240229", 3 / 1000, 3 / 200),
   ("claude-3-haiku-20240307", 1 / 4000, 1 / 800)]

/-- Modelled from the spec: match the model name against the pricing table
by exact name, else by longest known name that the model name extends. -/
def lookupPricing (model : String) : Option (ℚ × ℚ) :=
  match pricing_table.find? (fun e => e.1 == model) with
  | some e => some e.2
  | none =>
    let candidates := pricing_table.filter (fun e => e.1.data.isPrefixOf model.data)
    match candidates.foldl
        (fun best e =>
          match best with
          | none => some e
          | some b => if b.1.length < e.1.length then some e else some b)
        none with
    | some e => some e.2
    | none => none

/-- Modelled from the spec: `PromptExecutor._estimate_cost` — a pure pricing
lookup returning `none` when either token count is missing or no pricing
entry matches, and the token-weighted cost otherwise. -/
def estimate_cost (model : String) (input_tokens output_tokens : Option Nat) :
    Option ℚ :=
  match input_tokens, output_tokens with
  | some i, some o =>
    match lookupPricing model with
    | some pr => some ((i : ℚ) * pr.1 / 1000 + (o : ℚ) * pr.2 / 1000)
    | none => none
  | _, _ => none

/-- Modelled from the spec: one structured audit-log record (record names
as asserted by the tests: `prompt_execution_start`,
`prompt_execution_complete`, `prompt_execution_error`). -/
def logRecord (event promptId model : String) : String :=
  event ++ " " ++ promptId ++ " " ++ model

/-- Modelled from the spec: `PromptExecutor._append_to_file` — a no-op when
no log target is configured; otherwise a best-effort append whose write
failure (`writeOk = false`) is caught and discarded, never propagated. -/
def appendLogWrite (logTarget : Option String) (log : List String)
    (writeOk : Bool) (line : String) : List String :=
  match logTarget with
  | none => log
  | some _ => if writeOk then log ++ [line] else log

/-- Modelled from the spec: `PromptExecutor.execute`.  Inputs: the compiled
prompt, the assembly's identity, the model name, the collaborator's outcome
(`gen`), whether log writes succeed (`writeOk`), and the current audit-log
content.  Per the state machine of §4.4 it writes a start record, invokes
the collaborator, then either builds a success result, or builds a failure
result (`success = false`, `error` = the fault's message, empty response)
and re-raises a `PALExecutorError` naming the assembly id; either way it
writes a completion/error record and appends the one result to the
executor's history.  Returns the raised-or-returned value, the new executor
state, and the new audit-log content. -/
def execute (ex : PromptExecutor) (compiled_prompt assembly_id assembly_version : String)
    (model : String) (gen : Except String GenResponse) (writeOk : Bool)
    (log : List String) :
    Except PALExc ExecutionResult × PromptExecutor × List String :=
  let log1 := appendLogWrite ex.log_file log writeOk
    (logRecord "prompt_execution_start" assembly_id model)
  match gen with
  | .ok r =>
    let result : ExecutionResult :=
      { prompt_id := assembly_id
        prompt_version := assembly_version
        model := model
        compiled_prompt := compiled_prompt
        response := r.response
        success := true
        error := none
        input_tokens := r.input_tokens
        output_tokens := r.output_tokens
        estimated_cost := estimate_cost model r.input_tokens r.output_tokens }
    let log2 := appendLogWrite ex.log_file log1 writeOk
      (logRecord "prompt_execution_complete" assembly_id model)
    (.ok result,
     { ex with execution_history := ex.execution_history ++ [result] },
     log2)
  | .error msg =>
    let result : ExecutionResult :=
      { prompt_id := assembly_id
        prompt_version := assembly_version
        model := model
        compiled_prompt := compiled_prompt
        response := ""
        success := false
        error := some msg
        input_tokens := none
        output_tokens := none
        estimated_cost := none }
    let log2 := appendLogWrite ex.log_file log1 writeOk
      (logRecord "prompt_execution_error" assembly_id model)
    (.error (mkPALError .palExecutorError
        ("Execution failed for " ++ assembly_id ++ ": " ++ msg)
        (some [("assembly_id", assembly_id)])),
     { ex with execution_history := ex.execution_history ++ [result] },
     log2)

/-- Modelled from the spec: `PromptExecutor.get_execution_history` returns a
snapshot of the accumulated results. -/
def get_execution_history (ex : PromptExecutor) : List ExecutionResult :=
  ex.execution_history

/-- Modelled from the spec: `PromptExecutor.clear_history` resets the
history to empty. -/
def clear_history (ex : PromptExecutor) : PromptExecutor :=
  { ex with execution_history := [] }

/-! ## Resolver

`pal/core/resolver.py` is not among the available sources, so the resolver
is modelled from the specification (§4.2): each artifact is a node of
the import graph, identified here by a natural number standing for its
`(id, version)` key; `g n` lists the import targets of node `n` in declared
alias order.  Resolution is a depth-first traversal keeping the spec's
explicit node states — the in-progress nodes are exactly the explicit path
`stack`, the memoized completed nodes are `done` — and re-entering an
in-progress node fails with the circular-dependency error carrying the
cycle path from the re-entered node back to itself. -/

/-- Modelled from the spec: how `Resolver.resolve` fails.  `circular p`
stands for a raised `PALCircularDependencyError` whose context carries the
cycle path `p`; `fuelExhausted` is an artifact of the fuel-based embedding
of the recursion and is proved unreachable for sufficient fuel. -/
inductive ResolveErr where
  | circular (cyclePath : List Nat)
  | fuelExhausted
deriving DecidableEq, Repr

/-- Modelled from the spec: the recursive resolution step.  `stack` is the
explicit path of in-progress nodes in visit order, `done` the memoized
completed nodes (most recently completed first), `cs` the pending import
targets of the node on top of the stack.  Re-entering an in-progress node
fails with the cycle path from that node's stack position back to itself;
a memoized node is skipped; otherwise the node is pushed, its imports are
resolved, and it is marked done.  `fuel` bounds the recursion depth of the
embedding and strictly decreases on every call. -/
def visitList (g : Nat → List Nat) :
    Nat → List Nat → List Nat → List Nat → Except ResolveErr (List Nat)
  | 0, _, _, _ => .error .fuelExhausted
  | fuel + 1, stack, done, cs =>
    match cs with
    | [] => .ok done
    | c :: cs1 =>
      if c ∈ stack then
        .error (.circular ((stack.dropWhile (fun x => x != c)) ++ [c]))
      else if c ∈ done then
        visitList g fuel stack done cs1
      else
        match visitList g fuel (stack ++ [c]) done (g c) with
        | .error e => .error e
        | .ok done1 => visitList g fuel stack (c :: done1) cs1

/-- Modelled from the spec: `Resolver.resolve` on an assembly whose import
graph is `g` and whose root node is `root`; on success it returns the
completed nodes (the symbol table's unique artifacts). -/
def resolve (g : Nat → List Nat) (root : Nat) (fuel : Nat) :
    Except ResolveErr (List Nat) :=
  visitList g fuel [] [] [root]

/-- `isWalk g w` holds when consecutive entries of `w` are edges of
the import graph `g`. -/
def isWalk (g : Nat → List Nat) : List Nat → Bool
  | [] => true
  | [_] => true
  | a :: b :: rest => (g a).contains b && isWalk g (b :: rest)

/-- Reachability along import edges. -/
inductive ReachF (g : Nat → List Nat) : Nat → Nat → Prop where
  | refl (a : Nat) : ReachF g a a
  | step {a b c : Nat} : b ∈ g a → ReachF g b c → ReachF g a c

/-- The completed-node list is in reverse topological order: every
node's import targets occur strictly later in the list. -/
def topoOrd (g : Nat → List Nat) : List Nat → Prop
  | [] => True
  | n :: rest => (∀ v ∈ g n, v ∈ rest) ∧ n ∉ rest ∧ topoOrd g rest

/-- The largest number of import targets of any node of `V`. -/
def maxOutdeg (g : Nat → List Nat) (V : List Nat) : Nat :=
  V.foldr (fun v acc => max (g v).length acc) 0

/-- Fuel sufficient to resolve any assembly whose import graph stays inside
the node universe `V`. -/
def resolveFuel (g : Nat → List Nat) (V : List Nat) : Nat :=
  (maxOutdeg g V + 2) * V.length + 2

/-- A two-node import graph where node 0 imports node 1 and node 1 imports
node 0 — the spec's `B → C → B` scenario. -/
def cycleDemoGraph : Nat → List Nat :=
  fun n => if n == 0 then [1] else if n == 1 then [0] else []

/-! ## Theorems -/

/-- C3: every domain error class derives from the one base class `PALError`
(which carries the message and the structured context mapping);
`PALCircularDependencyError` is a subclass of `PALResolverError`,
`PALMissingVariableError` and `PALMissingComponentError` are subclasses of
`PALCompilerError`, and an `except` handler for the parent class catches
the specializations. -/
theorem error_taxonomy :
    (∀ c : PALErrorClass, isSubclass c .palError = true) ∧
    isSubclass .palCircularDependencyError .palResolverError = true ∧
    isSubclass .palMissingVariableError .palCompilerError = true ∧
    isSubclass .palMissingComponentError .palCompilerError = true ∧
    (∀ m ctx, (mkPALError .palError m ctx).message = m) ∧
    (∀ m ctx, catchesExc .palResolverError
        (mkPALError .palCircularDependencyError m ctx) = true) ∧
    (∀ m ctx, catchesExc .palCompilerError
        (mkPALError .palMissingVariableError m ctx) = true) ∧
    (∀ m ctx, catchesExc .palCompilerError
        (mkPALError .palMissingComponentError m ctx) = true) := by
  refine ⟨fun c => ?_, rfl, rfl, rfl, fun m ctx => rfl, fun m ctx => rfl,
    fun m ctx => rfl, fun m ctx => rfl⟩
  cases c <;> rfl

/-- C9: a `PALError` built with the context argument omitted (`None`) gets
the empty mapping as its `context` attribute — never `None` — and a
supplied context mapping is kept as given. -/
theorem palerror_context_default (cls : PALErrorClass) (m : String) :
    (mkPALError cls m none).context = [] ∧
    ∀ ctx, (mkPALError cls m (some ctx)).context = ctx := by
  refine ⟨rfl, fun ctx => ?_⟩
  cases ctx <;> rfl

/-- C4: a PAL domain error escaping a CLI command prints the error's
message and one line per context key/value pair and exits non-zero; a
non-domain error prints a generic line and exits non-zero; a body that
completes exits with code 0. -/
theorem cli_error_reporting :
    (∀ e : PALExc,
      ("Error: " ++ e.message) ∈ (runCommand (.error (.pal e))).1 ∧
      (∀ kv ∈ e.context,
        ("  " ++ kv.1 ++ ": " ++ kv.2) ∈ (runCommand (.error (.pal e))).1) ∧
      (runCommand (.error (.pal e))).2 ≠ 0) ∧
    (∀ m : String,
      ("Unexpected error: " ++ m) ∈ (runCommand (.error (.other m))).1 ∧
      (runCommand (.error (.other m))).2 ≠ 0) ∧
    (runCommand (.ok ())).2 = 0 := by
  refine ⟨fun e => ⟨by simp [runCommand, handle_error], ?_, by simp [runCommand]⟩,
    fun m => ⟨by simp [runCommand, handle_error], by simp [runCommand]⟩, rfl⟩
  intro kv hkv
  have hne : e.context.isEmpty = false := by
    cases h : e.context with
    | nil => exact absurd (h ▸ hkv) (List.not_mem_nil kv)
    | cons a t => rfl
  simp only [runCommand, handle_error, hne, Bool.false_eq_true, if_false,
    List.mem_cons]
  right; right
  exact List.mem_map_of_mem _ hkv

/-- C4 witness: a concrete load error with one context pair is reported
with its message and its context line, and the exit code is non-zero. -/
theorem cli_error_reporting_witness :
    ("Error: " ++ "boom")
      ∈ (runCommand (.error (.pal
          (mkPALError .palLoadError "boom" (some [("path", "x.pal")]))))).1 ∧
    ("  " ++ "path" ++ ": " ++ "x.pal")
      ∈ (runCommand (.error (.pal
          (mkPALError .palLoadError "boom" (some [("path", "x.pal")]))))).1 ∧
    (runCommand (.error (.pal
        (mkPALError .palLoadError "boom" (some [("path", "x.pal")]))))).2 ≠ 0 := by
  obtain ⟨h1, h2, h3⟩ :=
    cli_error_reporting.1 (mkPALError .palLoadError "boom" (some [("path", "x.pal")]))
  exact ⟨h1, h2 ("path", "x.pal") (by simp [mkPALError]), h3⟩

/-- C10: in the `compile` and `execute` commands, when both `--vars-file`
and `--vars` supply a value for the same key, the `--vars` value wins. -/
theorem vars_precedence {V : Type} (f a : String → Option V) (k : String)
    (vf va : V) (hf : f k = some vf) (ha : a k = some va) :
    load_cli_variables (some f) (some a) k = some va := by
  simp [load_cli_variables, dictUpdate, ha]

/-- C10 witness: with the file binding `x ↦ 1` and `--vars` binding
`x ↦ 2`, the effective value of `x` is 2. -/
theorem vars_precedence_witness :
    load_cli_variables (some (fun k => if k == "x" then some 1 else none))
      (some (fun k => if k == "x" then some 2 else none)) "x" = some (2 : Nat) :=
  vars_precedence _ _ "x" 1 2 (by simp) (by simp)

/-- C5 counterexample: a single assembly file whose only finding is an
undefined template variable is reported with status `Warning`, yet is not
counted valid, so the `validate` command exits with code 1 — the finding
alone does make validation fail, contrary to the claim. -/
theorem validate_warning_exit_counterexample :
    fileStatus (.assemblyOk ["name"] []) = "Warning" ∧
    fileCountsValid (.assemblyOk ["name"] []) = false ∧
    validateExitCode [.assemblyOk ["name"] []] = 1 := by
  refine ⟨rfl, rfl, rfl⟩

/-- C5 (amended): an undefined-template-variable finding is reported with
status `Warning` rather than `Invalid`, but such a file is not counted
valid, so any checked batch containing it makes the `validate` command
exit with code 1. -/
theorem validate_undefined_vars_warning (tv dv : List String)
    (rest : List PalFileOutcome) (h : (undefinedVars tv dv).isEmpty = false) :
    fileStatus (.assemblyOk tv dv) = "Warning" ∧
    fileCountsValid (.assemblyOk tv dv) = false ∧
    validateExitCode (rest ++ [.assemblyOk tv dv]) = 1 := by
  have hle := List.length_filter_le (fun f => fileCountsValid f) rest
  have hc : fileCountsValid (.assemblyOk tv dv) = false := by
    simp [fileCountsValid, h]
  refine ⟨by simp [fileStatus, h], hc, ?_⟩
  simp only [validateExitCode, List.filter_append, List.filter_cons, hc,
    Bool.false_eq_true, if_false, List.filter_nil, List.append_nil,
    List.length_append, List.length_cons, List.length_nil]
  rw [if_pos (by omega)]

/-- C5 witness: the amended statement at the concrete one-file batch. -/
theorem validate_undefined_vars_warning_witness :
    fileStatus (.assemblyOk ["name"] ["other"]) = "Warning" ∧
    fileCountsValid (.assemblyOk ["name"] ["other"]) = false ∧
    validateExitCode ([] ++ [.assemblyOk ["name"] ["other"]]) = 1 :=
  validate_undefined_vars_warning ["name"] ["other"] [] (by rfl)

/-- The best-candidate fold of `lookupPricing` only ever returns its
starting accumulator or an element of the folded list. -/
lemma foldl_pick_mem (l : List (String × ℚ × ℚ)) :
    ∀ (b : Option (String × ℚ × ℚ)) (e : String × ℚ × ℚ),
      l.foldl
        (fun best e =>
          match best with
          | none => some e
          | some b => if b.1.length < e.1.length then some e else some b)
        b = some e →
      b = some e ∨ e ∈ l := by
  induction l with
  | nil => intro b e h; exact Or.inl h
  | cons x xs ih =>
    intro b e h
    rcases ih _ e h with h1 | h1
    · match b with
      | none =>
        simp only at h1
        injection h1 with h1
        exact Or.inr (h1 ▸ List.mem_cons_self x xs)
      | some b0 =>
        simp only at h1
        by_cases hlt : b0.1.length < x.1.length
        · rw [if_pos hlt] at h1
          injection h1 with h1
          exact Or.inr (h1 ▸ List.mem_cons_self x xs)
        · rw [if_neg hlt] at h1
          exact Or.inl h1
    · exact Or.inr (List.mem_cons_of_mem x h1)

/-- Whatever `lookupPricing` returns came from the pricing table. -/
lemma lookupPricing_mem {model : String} {pr : ℚ × ℚ}
    (h : lookupPricing model = some pr) :
    ∃ name, (name, pr) ∈ pricing_table := by
  unfold lookupPricing at h
  cases hf : pricing_table.find? (fun e => e.1 == model) with
  | some e =>
    rw [hf] at h
    refine ⟨e.1, ?_⟩
    have he := List.mem_of_find?_eq_some hf
    obtain rfl : e.2 = pr := by injection h
    simpa using he
  | none =>
    rw [hf] at h
    simp only at h
    cases hg : (pricing_table.filter (fun e => e.1.data.isPrefixOf model.data)).foldl
        (fun best e =>
          match best with
          | none => some e
          | some b => if b.1.length < e.1.length then some e else some b)
        none with
    | none => rw [hg] at h; exact absurd h (by simp)
    | some e =>
      rw [hg] at h
      rcases foldl_pick_mem _ none e hg with h1 | h1
      · exact absurd h1 (by simp)
      · refine ⟨e.1, ?_⟩
        obtain rfl : e.2 = pr := by injection h
        simpa using List.mem_of_mem_filter h1

/-- Every entry of the pricing table has strictly positive input and
output rates. -/
lemma pricing_table_pos : ∀ e ∈ pricing_table, 0 < e.2.1 ∧ 0 < e.2.2 := by
  intro e he
  simp only [pricing_table, List.mem_cons, List.not_mem_nil, or_false] at he
  rcases he with rfl | rfl | rfl | rfl | rfl <;> norm_num

/-- A successful pricing lookup returns strictly positive rates. -/
lemma lookupPricing_pos {model : String} {pr : ℚ × ℚ}
    (h : lookupPricing model = some pr) : 0 < pr.1 ∧ 0 < pr.2 := by
  obtain ⟨name, hm⟩ := lookupPricing_mem h
  exact pricing_table_pos _ hm

/-- C7 counterexample: `gpt-4` matches the pricing table and both token
counts are present, yet with zero tokens the estimated cost is 0, which is
not strictly positive — refuting the claim's unconditional positivity. -/
theorem estimate_cost_zero_tokens_counterexample :
    lookupPricing "gpt-4" = some (3 / 100, 6 / 100) ∧
    estimate_cost "gpt-4" (some 0) (some 0) = some 0 ∧ ¬ (0 : ℚ) < 0 := by
  refine ⟨rfl, ?_, lt_irrefl 0⟩
  have h : lookupPricing "gpt-4" = some (3 / 100, 6 / 100) := rfl
  simp [estimate_cost, h]

/-- C7 (amended): cost estimation returns `None` whenever either token
count is missing or the model matches no pricing entry (exactly or by
prefix); with both token counts present and a matched entry it returns a
non-negative cost, strictly positive as soon as at least one token count
is positive. -/
theorem estimate_cost_spec (model : String) (i o : Option Nat) :
    ((i = none ∨ o = none) → estimate_cost model i o = none) ∧
    (lookupPricing model = none → estimate_cost model i o = none) ∧
    (∀ a b pr, i = some a → o = some b → lookupPricing model = some pr →
      ∃ c, estimate_cost model i o = some c ∧ 0 ≤ c ∧ (0 < a + b → 0 < c)) := by
  refine ⟨?_, ?_, ?_⟩
  · rintro (rfl | rfl)
    · rfl
    · cases i <;> rfl
  · intro hl
    cases i <;> cases o <;> simp [estimate_cost, hl]
  · rintro a b pr rfl rfl hl
    obtain ⟨hp1, hp2⟩ := lookupPricing_pos hl
    have h1 : (0 : ℚ) ≤ (a : ℚ) * pr.1 / 1000 :=
      div_nonneg (mul_nonneg (Nat.cast_nonneg a) hp1.le) (by norm_num)
    have h2 : (0 : ℚ) ≤ (b : ℚ) * pr.2 / 1000 :=
      div_nonneg (mul_nonneg (Nat.cast_nonneg b) hp2.le) (by norm_num)
    refine ⟨_, by simp [estimate_cost, hl], add_nonneg h1 h2, ?_⟩
    intro hab
    have hor : 0 < a ∨ 0 < b := by omega
    rcases hor with hor | hor
    · have : (0 : ℚ) < (a : ℚ) * pr.1 / 1000 :=
        div_pos (mul_pos (by exact_mod_cast hor) hp1) (by norm_num)
      exact add_pos_of_pos_of_nonneg this h2
    · have : (0 : ℚ) < (b : ℚ) * pr.2 / 1000 :=
        div_pos (mul_pos (by exact_mod_cast hor) hp2) (by norm_num)
      exact add_pos_of_nonneg_of_pos h1 this

/-- C7 witness: a missing token count gives `None`, an unknown model gives
`None`, and `gpt-4` with 1000/2000 tokens gives a strictly positive
cost. -/
theorem estimate_cost_spec_witness :
    estimate_cost "gpt-4" none (some 2000) = none ∧
    estimate_cost "unknown-model" (some 1000) (some 2000) = none ∧
    ∃ c, estimate_cost "gpt-4" (some 1000) (some 2000) = some c ∧ 0 ≤ c ∧ 0 < c := by
  obtain ⟨c, hc, hnn, hpos⟩ :=
    (estimate_cost_spec "gpt-4" (some 1000) (some 2000)).2.2 1000 2000
      (3 / 100, 6 / 100) rfl rfl rfl
  exact ⟨(estimate_cost_spec "gpt-4" none (some 2000)).1 (Or.inl rfl),
    (estimate_cost_spec "unknown-model" (some 1000) (some 2000)).2.1 rfl,
    c, hc, hnn, hpos (by norm_num)⟩

/-- C1: when the model-calling collaborator raises, `execute` builds a
failed `ExecutionResult` (`success = false`, `error` = the fault's message,
empty response), appends it to the executor's history, and re-raises a
`PALExecutorError` whose message names the assembly id; the failed result
is visible in `get_execution_history` afterwards. -/
theorem execute_failure_records_and_raises (ex : PromptExecutor)
    (cp aid aver model faultMsg : String) (gen : Except String GenResponse)
    (writeOk : Bool) (log : List String) (hgen : gen = .error faultMsg) :
    ∃ e res,
      (execute ex cp aid aver model gen writeOk log).1 = .error e ∧
      e.cls = .palExecutorError ∧
      e.message = "Execution failed for " ++ aid ++ ": " ++ faultMsg ∧
      res.success = false ∧ res.error = some faultMsg ∧ res.response = "" ∧
      (execute ex cp aid aver model gen writeOk log).2.1.execution_history
        = ex.execution_history ++ [res] ∧
      res ∈ get_execution_history (execute ex cp aid aver model gen writeOk log).2.1 := by
  subst hgen
  refine ⟨_, _, rfl, rfl, rfl, rfl, rfl, rfl, rfl, ?_⟩
  simp [get_execution_history, execute]

/-- C1 witness: the spec's scenario — a collaborator raising `Test error`
against assembly `test-prompt` with an initially empty history. -/
theorem execute_failure_witness :
    ∃ e res,
      (execute ⟨none, []⟩ "Test prompt" "test-prompt" "1.0.0" "test-model"
          (.error "Test error") true []).1 = .error e ∧
      e.cls = .palExecutorError ∧
      e.message = "Execution failed for " ++ "test-prompt" ++ ": " ++ "Test error" ∧
      res.success = false ∧ res.error = some "Test error" ∧ res.response = "" ∧
      (execute ⟨none, []⟩ "Test prompt" "test-prompt" "1.0.0" "test-model"
          (.error "Test error") true []).2.1.execution_history
        = ([] : List ExecutionResult) ++ [res] ∧
      res ∈ get_execution_history
        (execute ⟨none, []⟩ "Test prompt" "test-prompt" "1.0.0" "test-model"
          (.error "Test error") true []).2.1 :=
  execute_failure_records_and_raises ⟨none, []⟩ "Test prompt" "test-prompt"
    "1.0.0" "test-model" "Test error" (.error "Test error") true [] rfl

/-- C6: every `execute` call — collaborator success or failure alike —
appends exactly one `ExecutionResult` to the executor's history. -/
theorem execute_appends_exactly_one (ex : PromptExecutor)
    (cp aid aver model : String) (gen : Except String GenResponse)
    (writeOk : Bool) (log : List String) :
    (execute ex cp aid aver model gen writeOk log).2.1.execution_history.length
      = ex.execution_history.length + 1 := by
  cases gen <;> simp [execute]

/-- C8: with a configured audit-log target, a failing log write
(`writeOk = false`) is swallowed: the call still returns a successful
result, the result is still appended to the history, and both the returned
value and the executor state equal those of a run whose log writes
succeed. -/
theorem log_failure_swallowed (lf : String) (hist : List ExecutionResult)
    (cp aid aver model : String) (r : GenResponse) (log : List String) :
    ∃ res,
      (execute ⟨some lf, hist⟩ cp aid aver model (.ok r) false log).1 = .ok res ∧
      res.success = true ∧
      (execute ⟨some lf, hist⟩ cp aid aver model (.ok r) false log).2.1.execution_history
        = hist ++ [res] ∧
      (execute ⟨some lf, hist⟩ cp aid aver model (.ok r) false log).1
        = (execute ⟨some lf, hist⟩ cp aid aver model (.ok r) true log).1 ∧
      (execute ⟨some lf, hist⟩ cp aid aver model (.ok r) false log).2.1
        = (execute ⟨some lf, hist⟩ cp aid aver model (.ok r) true log).2.1 :=
  ⟨_, rfl, rfl, rfl, rfl, rfl⟩

/-- Dropping the elements strictly before the first occurrence of `c`
leaves a list whose head is `c`. -/
lemma head_dropWhile_bne {c : Nat} :
    ∀ {l : List Nat}, c ∈ l → (l.dropWhile (fun x => x != c)).head? = some c := by
  intro l
  induction l with
  | nil => intro h; exact absurd h (List.not_mem_nil c)
  | cons a t ih =>
    intro h
    by_cases hac : a = c
    · subst hac
      rw [List.dropWhile_cons, if_neg (by simp)]
      rfl
    · rw [List.dropWhile_cons, if_pos (by simp [hac])]
      have h1 : c ∈ t := by
        rcases List.mem_cons.mp h with h1 | h1
        · exact absurd h1.symm hac
        · exact h1
      exact ih h1

/-- A walk stays a walk after removing its first node. -/
lemma isWalk_cons (g : Nat → List Nat) (a : Nat) (l : List Nat)
    (h : isWalk g (a :: l) = true) : isWalk g l = true := by
  cases l with
  | nil => rfl
  | cons b r =>
    simp only [isWalk, Bool.and_eq_true] at h
    exact h.2

/-- A walk stays a walk after removing a prefix. -/
lemma isWalk_append_right (g : Nat → List Nat) :
    ∀ (u l : List Nat), isWalk g (u ++ l) = true → isWalk g l = true := by
  intro u
  induction u with
  | nil => intro l h; exact h
  | cons a u ih => intro l h; exact ih l (isWalk_cons g a _ h)

/-- A suffix of a walk is a walk. -/
lemma isWalk_suffix (g : Nat → List Nat) {s t : List Nat} (hs : s <:+ t)
    (h : isWalk g t = true) : isWalk g s = true := by
  obtain ⟨u, rfl⟩ := hs
  exact isWalk_append_right g u s h

/-- Extending a walk by one edge out of its last node keeps it a walk. -/
lemma isWalk_append_last (g : Nat → List Nat) :
    ∀ (s : List Nat) (l c : Nat), isWalk g s = true → s.getLast? = some l →
      (g l).contains c = true → isWalk g (s ++ [c]) = true := by
  intro s
  induction s with
  | nil => intro l c _ hl _; simp at hl
  | cons a r ih =>
    intro l c hw hl hc
    cases r with
    | nil =>
      obtain rfl : a = l := by simpa using hl
      simpa [isWalk] using hc
    | cons b r2 =>
      simp only [isWalk, Bool.and_eq_true] at hw
      have hl2 : (b :: r2).getLast? = some l := by
        rwa [List.getLast?_cons_cons] at hl
      have hrec := ih l c hw.2 hl2 hc
      simp only [List.cons_append, isWalk, Bool.and_eq_true]
      refine ⟨hw.1, ?_⟩
      simpa only [List.cons_append] using hrec

/-- A nonempty list has a last element. -/
lemma exists_getLast? {l : List Nat} (h : l ≠ []) : ∃ x, l.getLast? = some x := by
  cases hc : l.getLast? with
  | some x => exact ⟨x, rfl⟩
  | none => exact absurd (List.getLast?_eq_none_iff.mp hc) h

/-- If the resolution step fails with a circular-dependency error, the
reported cycle path is nonempty, starts and ends at the re-entered node,
and is a walk of the import graph — provided the in-progress stack is a
walk and the pending imports are successors of the stack's last node. -/
lemma visitList_circular_shape (g : Nat → List Nat) :
    ∀ (fuel : Nat) (stack cs done p : List Nat),
      isWalk g stack = true →
      (∀ l, stack.getLast? = some l → ∀ c ∈ cs, (g l).contains c = true) →
      visitList g fuel stack done cs = .error (.circular p) →
      ∃ m, p.head? = some m ∧ p.getLast? = some m ∧ isWalk g p = true := by
  intro fuel
  induction fuel with
  | zero =>
    intro stack cs done p _ _ h
    simp [visitList] at h
  | succ fuel ih =>
    intro stack cs done p hw hlink h
    cases cs with
    | nil => simp [visitList] at h
    | cons c cs1 =>
      simp only [visitList] at h
      by_cases hcs : c ∈ stack
      · rw [if_pos hcs] at h
        simp only [Except.error.injEq, ResolveErr.circular.injEq] at h
        subst h
        have hne : stack ≠ [] := by
          intro h0; rw [h0] at hcs; exact absurd hcs (List.not_mem_nil c)
        obtain ⟨l, hl⟩ := exists_getLast? hne
        have hcl : (g l).contains c = true := hlink l hl c (List.mem_cons_self c cs1)
        have hdw_suffix := List.dropWhile_suffix (l := stack) (fun x => x != c)
        have hdw_head := head_dropWhile_bne hcs
        have hdw_ne : stack.dropWhile (fun x => x != c) ≠ [] := by
          intro h0; rw [h0] at hdw_head; exact absurd hdw_head (by simp)
        have hdw_last : (stack.dropWhile (fun x => x != c)).getLast? = some l := by
          obtain ⟨u, hu⟩ := hdw_suffix
          rw [← hu, List.getLast?_append_of_ne_nil u hdw_ne] at hl
          exact hl
        have hwalk_dw : isWalk g (stack.dropWhile (fun x => x != c)) = true :=
          isWalk_suffix g hdw_suffix hw
        refine ⟨c, ?_, List.getLast?_concat _, isWalk_append_last g _ l c hwalk_dw hdw_last hcl⟩
        cases hdw : stack.dropWhile (fun x => x != c) with
        | nil => exact absurd hdw hdw_ne
        | cons m rest =>
          rw [hdw] at hdw_head
          obtain rfl : m = c := by simpa using hdw_head
          rfl
      · rw [if_neg hcs] at h
        by_cases hcd : c ∈ done
        · rw [if_pos hcd] at h
          exact ih stack cs1 done p hw
            (fun l hl c2 hc2 => hlink l hl c2 (List.mem_cons_of_mem c hc2)) h
        · rw [if_neg hcd] at h
          have hw2 : isWalk g (stack ++ [c]) = true := by
            rcases eq_or_ne stack [] with h0 | h0
            · subst h0; rfl
            · obtain ⟨l, hl⟩ := exists_getLast? h0
              exact isWalk_append_last g stack l c hw hl
                (hlink l hl c (List.mem_cons_self c cs1))
          have hlink2 : ∀ l, (stack ++ [c]).getLast? = some l →
              ∀ x ∈ g c, (g l).contains x = true := by
            intro l hl x hx
            rw [List.getLast?_concat] at hl
            obtain rfl : c = l := by simpa using hl
            simpa using hx
          cases hin : visitList g fuel (stack ++ [c]) done (g c) with
          | error e =>
            rw [hin] at h
            simp only [Except.error.injEq] at h
            subst h
            exact ih (stack ++ [c]) (g c) done p hw2 hlink2 hin
          | ok done1 =>
            rw [hin] at h
            exact ih stack cs1 (c :: done1) p hw
              (fun l hl c2 hc2 => hlink l hl c2 (List.mem_cons_of_mem c hc2)) h

/-- A successful resolution step never discards memoized nodes. -/
lemma visitList_ok_mono (g : Nat → List Nat) :
    ∀ (fuel : Nat) (stack cs done done2 : List Nat),
      visitList g fuel stack done cs = .ok done2 →
      ∀ x ∈ done, x ∈ done2 := by
  intro fuel
  induction fuel with
  | zero => intro stack cs done done2 h; simp [visitList] at h
  | succ fuel ih =>
    intro stack cs done done2 h
    cases cs with
    | nil =>
      simp only [visitList, Except.ok.injEq] at h
      subst h; exact fun x hx => hx
    | cons c cs1 =>
      simp only [visitList] at h
      by_cases hcs : c ∈ stack
      · rw [if_pos hcs] at h; exact absurd h (by simp)
      · rw [if_neg hcs] at h
        by_cases hcd : c ∈ done
        · rw [if_pos hcd] at h; exact ih _ _ _ _ h
        · rw [if_neg hcd] at h
          cases hin : visitList g fuel (stack ++ [c]) done (g c) with
          | error e => rw [hin] at h; exact absurd h (by simp)
          | ok done1 =>
            rw [hin] at h
            intro x hx
            exact ih _ _ _ _ h x (List.mem_cons_of_mem c (ih _ _ _ _ hin x hx))

/-- After a successful resolution step every pending import target is
memoized. -/
lemma visitList_ok_mem (g : Nat → List Nat) :
    ∀ (fuel : Nat) (stack cs done done2 : List Nat),
      visitList g fuel stack done cs = .ok done2 →
      ∀ c ∈ cs, c ∈ done2 := by
  intro fuel
  induction fuel with
  | zero => intro stack cs done done2 h; simp [visitList] at h
  | succ fuel ih =>
    intro stack cs done done2 h
    cases cs with
    | nil => intro c hc; exact absurd hc (List.not_mem_nil c)
    | cons c cs1 =>
      simp only [visitList] at h
      by_cases hcs : c ∈ stack
      · rw [if_pos hcs] at h; exact absurd h (by simp)
      · rw [if_neg hcs] at h
        by_cases hcd : c ∈ done
        · rw [if_pos hcd] at h
          intro x hx
          rcases List.mem_cons.mp hx with rfl | hx
          · exact visitList_ok_mono g _ _ _ _ _ h x hcd
          · exact ih _ _ _ _ h x hx
        · rw [if_neg hcd] at h
          cases hin : visitList g fuel (stack ++ [c]) done (g c) with
          | error e => rw [hin] at h; exact absurd h (by simp)
          | ok done1 =>
            rw [hin] at h
            intro x hx
            rcases List.mem_cons.mp hx with rfl | hx
            · exact visitList_ok_mono g _ _ _ _ _ h x (List.mem_cons_self x done1)
            · exact ih _ _ _ _ h x hx

/-- A successful resolution step never memoizes a node that was in
progress on entry (unless it was already memoized). -/
lemma visitList_ok_stack (g : Nat → List Nat) :
    ∀ (fuel : Nat) (stack cs done done2 : List Nat),
      visitList g fuel stack done cs = .ok done2 →
      ∀ x ∈ stack, x ∉ done → x ∉ done2 := by
  intro fuel
  induction fuel with
  | zero => intro stack cs done done2 h; simp [visitList] at h
  | succ fuel ih =>
    intro stack cs done done2 h
    cases cs with
    | nil =>
      simp only [visitList, Except.ok.injEq] at h
      subst h; exact fun x _ hx => hx
    | cons c cs1 =>
      simp only [visitList] at h
      by_cases hcs : c ∈ stack
      · rw [if_pos hcs] at h; exact absurd h (by simp)
      · rw [if_neg hcs] at h
        by_cases hcd : c ∈ done
        · rw [if_pos hcd] at h; exact ih _ _ _ _ h
        · rw [if_neg hcd] at h
          cases hin : visitList g fuel (stack ++ [c]) done (g c) with
          | error e => rw [hin] at h; exact absurd h (by simp)
          | ok done1 =>
            rw [hin] at h
            intro x hx hxd
            have hx1 : x ∉ done1 :=
              ih _ _ _ _ hin x (List.mem_append_left [c] hx) hxd
            have hxc : x ≠ c := fun h0 => hcs (h0 ▸ hx)
            exact ih _ _ _ _ h x hx
              (fun h0 => (List.mem_cons.mp h0).elim hxc hx1)

/-- A successful resolution step keeps the memoized list in reverse
topological order: every node's import targets occur strictly later. -/
lemma visitList_ok_topo (g : Nat → List Nat) :
    ∀ (fuel : Nat) (stack cs done done2 : List Nat),
      topoOrd g done →
      visitList g fuel stack done cs = .ok done2 →
      topoOrd g done2 := by
  intro fuel
  induction fuel with
  | zero => intro stack cs done done2 _ h; simp [visitList] at h
  | succ fuel ih =>
    intro stack cs done done2 ht h
    cases cs with
    | nil =>
      simp only [visitList, Except.ok.injEq] at h
      subst h; exact ht
    | cons c cs1 =>
      simp only [visitList] at h
      by_cases hcs : c ∈ stack
      · rw [if_pos hcs] at h; exact absurd h (by simp)
      · rw [if_neg hcs] at h
        by_cases hcd : c ∈ done
        · rw [if_pos hcd] at h; exact ih _ _ _ _ ht h
        · rw [if_neg hcd] at h
          cases hin : visitList g fuel (stack ++ [c]) done (g c) with
          | error e => rw [hin] at h; exact absurd h (by simp)
          | ok done1 =>
            rw [hin] at h
            have ht1 : topoOrd g (c :: done1) := by
              refine ⟨visitList_ok_mem g _ _ _ _ _ hin, ?_, ih _ _ _ _ ht hin⟩
              exact visitList_ok_stack g _ _ _ _ _ hin c
                (List.mem_append_right stack (List.mem_singleton.mpr rfl)) hcd
            exact ih _ _ _ _ ht1 h

/-- Every node stays inside the closed node universe `V` along a
successful resolution step. -/
lemma visitList_ok_subsetV (g : Nat → List Nat) (V : List Nat)
    (hclosed : ∀ u ∈ V, ∀ v ∈ g u, v ∈ V) :
    ∀ (fuel : Nat) (stack cs done done2 : List Nat),
      (∀ x ∈ done, x ∈ V) → (∀ x ∈ cs, x ∈ V) →
      visitList g fuel stack done cs = .ok done2 →
      ∀ x ∈ done2, x ∈ V := by
  intro fuel
  induction fuel with
  | zero => intro stack cs done done2 _ _ h; simp [visitList] at h
  | succ fuel ih =>
    intro stack cs done done2 hdone hcsV h
    cases cs with
    | nil =>
      simp only [visitList, Except.ok.injEq] at h
      subst h; exact hdone
    | cons c cs1 =>
      simp only [visitList] at h
      by_cases hcs : c ∈ stack
      · rw [if_pos hcs] at h; exact absurd h (by simp)
      · rw [if_neg hcs] at h
        by_cases hcd : c ∈ done
        · rw [if_pos hcd] at h
          exact ih _ _ _ _ hdone (fun x hx => hcsV x (List.mem_cons_of_mem c hx)) h
        · rw [if_neg hcd] at h
          have hcV : c ∈ V := hcsV c (List.mem_cons_self c cs1)
          cases hin : visitList g fuel (stack ++ [c]) done (g c) with
          | error e => rw [hin] at h; exact absurd h (by simp)
          | ok done1 =>
            rw [hin] at h
            have hd1 : ∀ x ∈ done1, x ∈ V :=
              ih _ _ _ _ hdone (fun x hx => hclosed c hcV x hx) hin
            have hd2 : ∀ x ∈ c :: done1, x ∈ V := by
              intro x hx
              rcases List.mem_cons.mp hx with rfl | hx
              · exact hcV
              · exact hd1 x hx
            exact ih _ _ _ _ hd2 (fun x hx => hcsV x (List.mem_cons_of_mem c hx)) h

/-- In a reverse-topologically ordered list, following an edge strictly
increases the position. -/
lemma topoOrd_edge (g : Nat → List Nat) :
    ∀ (d : List Nat), topoOrd g d → ∀ u, u ∈ d → ∀ v ∈ g u,
      v ∈ d ∧ d.indexOf u < d.indexOf v := by
  intro d
  induction d with
  | nil => intro _ u hu; exact absurd hu (List.not_mem_nil u)
  | cons n rest ih =>
    intro ht u hu v hv
    obtain ⟨hsucc, hnin, htail⟩ := ht
    by_cases hun : u = n
    · subst hun
      have hvrest : v ∈ rest := hsucc v hv
      have hvn : v ≠ u := fun h0 => hnin (h0 ▸ hvrest)
      refine ⟨List.mem_cons_of_mem _ hvrest, ?_⟩
      rw [List.indexOf_cons_self, List.indexOf_cons_ne _ (Ne.symm hvn)]
      exact Nat.succ_pos _
    · have hurest : u ∈ rest := (List.mem_cons.mp hu).resolve_left hun
      obtain ⟨hvrest, hlt⟩ := ih htail u hurest v hv
      have hvn : v ≠ n := fun h0 => hnin (h0 ▸ hvrest)
      refine ⟨List.mem_cons_of_mem _ hvrest, ?_⟩
      rw [List.indexOf_cons_ne _ (fun h0 => hun h0.symm),
        List.indexOf_cons_ne _ (fun h0 => hvn h0.symm)]
      exact Nat.succ_lt_succ hlt

/-- In a reverse-topologically ordered list, a walk of length at least two
strictly increases the position from its first to its last node. -/
lemma topoOrd_walk_lt (g : Nat → List Nat) (d : List Nat) (ht : topoOrd g d) :
    ∀ (w : List Nat) (a z : Nat), isWalk g w = true → w.head? = some a →
      w.getLast? = some z → a ∈ d →
      z ∈ d ∧ d.indexOf a ≤ d.indexOf z ∧
        (2 ≤ w.length → d.indexOf a < d.indexOf z) := by
  intro w
  induction w with
  | nil => intro a z _ ha; simp at ha
  | cons x w ih =>
    intro a z hwk ha hz hx
    obtain rfl : a = x := (by simpa using ha : x = a).symm
    cases w with
    | nil =>
      obtain rfl : a = z := by simpa using hz
      exact ⟨hx, le_refl _, by intro h2; simp at h2⟩
    | cons y w2 =>
      simp only [isWalk, Bool.and_eq_true] at hwk
      have hyg : y ∈ g a := by simpa using hwk.1
      obtain ⟨hyd, hlt⟩ := topoOrd_edge g d ht a hx y hyg
      have hz2 : (y :: w2).getLast? = some z := by
        rwa [List.getLast?_cons_cons] at hz
      obtain ⟨hzd, hle, _⟩ := ih y z hwk.2 rfl hz2 hyd
      exact ⟨hzd, (hlt.trans_le hle).le, fun _ => hlt.trans_le hle⟩

/-- Every node reachable from a node of a reverse-topologically ordered
list is itself in the list. -/
lemma reach_mem_of_topo (g : Nat → List Nat) (d : List Nat)
    (ht : topoOrd g d) : ∀ {a b : Nat}, ReachF g a b → a ∈ d → b ∈ d := by
  intro a b h
  induction h with
  | refl => exact fun h0 => h0
  | step hedge _ ih =>
    intro ha
    exact ih ((topoOrd_edge g d ht _ ha _ hedge).1)

/-- `maxOutdeg` bounds the outdegree of every node of `V`. -/
lemma maxOutdeg_le (g : Nat → List Nat) :
    ∀ (V : List Nat), ∀ v ∈ V, (g v).length ≤ maxOutdeg g V := by
  intro V
  induction V with
  | nil => intro v hv; exact absurd hv (List.not_mem_nil v)
  | cons a t ih =>
    intro v hv
    rcases List.mem_cons.mp hv with rfl | hv
    · exact le_max_left _ _
    · exact (ih v hv).trans (le_max_right _ _)

/-- With enough fuel — measured against the unvisited part of a closed
node universe `V` — the resolution step never exhausts its fuel. -/
lemma visitList_no_exhaust (g : Nat → List Nat) (V : List Nat) (K : Nat)
    (hK : ∀ v ∈ V, (g v).length ≤ K)
    (hclosed : ∀ u ∈ V, ∀ v ∈ g u, v ∈ V) :
    ∀ (fuel : Nat) (stack cs done : List Nat),
      (∀ x ∈ stack, x ∈ V) → (∀ x ∈ done, x ∈ V) → (∀ x ∈ cs, x ∈ V) →
      (K + 2) * (V.toFinset \ (done.toFinset ∪ stack.toFinset)).card
        + cs.length + 1 ≤ fuel →
      visitList g fuel stack done cs ≠ .error .fuelExhausted := by
  intro fuel
  induction fuel with
  | zero => intro stack cs done _ _ _ hF; omega
  | succ fuel ih =>
    intro stack cs done hstack hdone hcsV hF
    cases cs with
    | nil => simp [visitList]
    | cons c cs1 =>
      simp only [visitList]
      by_cases hcst : c ∈ stack
      · rw [if_pos hcst]; simp
      · rw [if_neg hcst]
        by_cases hcd : c ∈ done
        · rw [if_pos hcd]
          refine ih stack cs1 done hstack hdone
            (fun x hx => hcsV x (List.mem_cons_of_mem c hx)) ?_
          simp only [List.length_cons] at hF
          omega
        · rw [if_neg hcd]
          have hcV : c ∈ V := hcsV c (List.mem_cons_self c cs1)
          have hcw : c ∈ V.toFinset \ (done.toFinset ∪ stack.toFinset) := by
            simp only [Finset.mem_sdiff, Finset.mem_union, List.mem_toFinset]
            exact ⟨hcV, fun h0 => h0.elim hcd hcst⟩
          have hWpos : 0 <
              (V.toFinset \ (done.toFinset ∪ stack.toFinset)).card :=
            Finset.card_pos.mpr ⟨c, hcw⟩
          have hstackc : ∀ x ∈ stack ++ [c], x ∈ V := by
            intro x hx
            rcases List.mem_append.mp hx with hx | hx
            · exact hstack x hx
            · rw [List.mem_singleton.mp hx]; exact hcV
          have hgcV : ∀ x ∈ g c, x ∈ V := fun x hx => hclosed c hcV x hx
          have hsub1 : V.toFinset \ (done.toFinset ∪ (stack ++ [c]).toFinset)
              ⊆ (V.toFinset \ (done.toFinset ∪ stack.toFinset)).erase c := by
            intro x hx
            simp only [Finset.mem_sdiff, Finset.mem_union, List.mem_toFinset,
              List.toFinset_append, Finset.mem_erase, List.toFinset_cons,
              List.toFinset_nil, Finset.mem_insert, Finset.not_mem_empty,
              or_false] at hx ⊢
            tauto
          have hcard1 : (V.toFinset \ (done.toFinset ∪ (stack ++ [c]).toFinset)).card
              ≤ (V.toFinset \ (done.toFinset ∪ stack.toFinset)).card - 1 := by
            calc (V.toFinset \ (done.toFinset ∪ (stack ++ [c]).toFinset)).card
                ≤ ((V.toFinset \ (done.toFinset ∪ stack.toFinset)).erase c).card :=
                  Finset.card_le_card hsub1
              _ = (V.toFinset \ (done.toFinset ∪ stack.toFinset)).card - 1 :=
                  Finset.card_erase_of_mem hcw
          have hglen : (g c).length ≤ K := hK c hcV
          have hFin : (K + 2) *
              (V.toFinset \ (done.toFinset ∪ (stack ++ [c]).toFinset)).card
              + (g c).length + 1 ≤ fuel := by
            have hci : (V.toFinset \ (done.toFinset ∪ (stack ++ [c]).toFinset)).card + 1
                ≤ (V.toFinset \ (done.toFinset ∪ stack.toFinset)).card := by omega
            have hmul := Nat.mul_le_mul_left (K + 2) hci
            rw [Nat.mul_succ] at hmul
            simp only [List.length_cons] at hF
            omega
          cases hin : visitList g fuel (stack ++ [c]) done (g c) with
          | error e =>
            have hinner := ih (stack ++ [c]) (g c) done hstackc hdone hgcV hFin
            rw [hin] at hinner
            exact hinner
          | ok done1 =>
            have hd1V : ∀ x ∈ done1, x ∈ V :=
              visitList_ok_subsetV g V hclosed fuel _ _ _ _ hdone hgcV hin
            have hd2V : ∀ x ∈ c :: done1, x ∈ V := by
              intro x hx
              rcases List.mem_cons.mp hx with rfl | hx
              · exact hcV
              · exact hd1V x hx
            have hmono := visitList_ok_mono g fuel _ _ _ _ hin
            have hsub2 : V.toFinset \ ((c :: done1).toFinset ∪ stack.toFinset)
                ⊆ (V.toFinset \ (done.toFinset ∪ stack.toFinset)).erase c := by
              intro x hx
              simp only [Finset.mem_sdiff, Finset.mem_union, List.mem_toFinset,
                List.toFinset_cons, Finset.mem_insert, Finset.mem_erase] at hx ⊢
              refine ⟨fun h0 => hx.2 (Or.inl (Or.inl h0)), hx.1, fun h0 => ?_⟩
              rcases h0 with h0 | h0
              · exact hx.2 (Or.inl (Or.inr (hmono x h0)))
              · exact hx.2 (Or.inr h0)
            have hcard2 : (V.toFinset \ ((c :: done1).toFinset ∪ stack.toFinset)).card
                ≤ (V.toFinset \ (done.toFinset ∪ stack.toFinset)).card - 1 := by
              calc (V.toFinset \ ((c :: done1).toFinset ∪ stack.toFinset)).card
                  ≤ ((V.toFinset \ (done.toFinset ∪ stack.toFinset)).erase c).card :=
                    Finset.card_le_card hsub2
                _ = (V.toFinset \ (done.toFinset ∪ stack.toFinset)).card - 1 :=
                    Finset.card_erase_of_mem hcw
            refine ih stack cs1 (c :: done1) hstack hd2V
              (fun x hx => hcsV x (List.mem_cons_of_mem c hx)) ?_
            have hci : (V.toFinset \ ((c :: done1).toFinset ∪ stack.toFinset)).card + 1
                ≤ (V.toFinset \ (done.toFinset ∪ stack.toFinset)).card := by omega
            have hmul := Nat.mul_le_mul_left (K + 2) hci
            rw [Nat.mul_succ] at hmul
            simp only [List.length_cons] at hF
            omega

/-- C2: for every assembly whose import graph (the part reachable from the
assembly's root inside the closed node universe `V`) contains a cycle of
length ≥ 1 — a closed walk of at least one edge, self-imports included —
`resolve` fails with the circular-dependency error, and the cycle path
carried in the error is a nonempty walk of the import graph that starts
and ends at the re-entered node. -/
theorem resolver_detects_cycle (g : Nat → List Nat) (V : List Nat)
    (root : Nat) (fuel : Nat) (hroot : root ∈ V)
    (hclosed : ∀ u ∈ V, ∀ v ∈ g u, v ∈ V)
    (hfuel : resolveFuel g V ≤ fuel)
    (hcyc : ∃ n w, ReachF g root n ∧ isWalk g w = true ∧ w.head? = some n ∧
      w.getLast? = some n ∧ 2 ≤ w.length) :
    ∃ p, resolve g root fuel = .error (.circular p) ∧ p ≠ [] ∧
      p.head? = p.getLast? ∧ isWalk g p = true := by
  obtain ⟨n, w, hreach, hwk, whd, wlast, wlen⟩ := hcyc
  cases hres : resolve g root fuel with
  | ok done2 =>
    exfalso
    unfold resolve at hres
    have htopo : topoOrd g done2 :=
      visitList_ok_topo g fuel [] [root] [] done2 trivial hres
    have hrootd : root ∈ done2 :=
      visitList_ok_mem g fuel [] [root] [] done2 hres root
        (List.mem_singleton.mpr rfl)
    have hnd : n ∈ done2 := reach_mem_of_topo g done2 htopo hreach hrootd
    obtain ⟨_, _, hlt⟩ := topoOrd_walk_lt g done2 htopo w n n hwk whd wlast hnd
    exact absurd (hlt wlen) (lt_irrefl _)
  | error e =>
    cases e with
    | circular p =>
      unfold resolve at hres
      obtain ⟨m, hh, hl, hwalkp⟩ :=
        visitList_circular_shape g fuel [] [root] [] p rfl
          (by intro l hl; simp at hl) hres
      refine ⟨p, rfl, ?_, ?_, hwalkp⟩
      · intro h0; rw [h0] at hh; exact absurd hh (by simp)
      · rw [hh, hl]
    | fuelExhausted =>
      exfalso
      unfold resolve at hres
      have hcard : (V.toFinset \
          ((([] : List Nat)).toFinset ∪ (([] : List Nat)).toFinset)).card
          ≤ V.length := by
        simp only [List.toFinset_nil, Finset.union_self, Finset.sdiff_empty]
        exact List.toFinset_card_le V
      have hmul := Nat.mul_le_mul_left (maxOutdeg g V + 2) hcard
      have hF : (maxOutdeg g V + 2) * (V.toFinset \
          ((([] : List Nat)).toFinset ∪ (([] : List Nat)).toFinset)).card
          + ([root] : List Nat).length + 1 ≤ fuel := by
        simp only [resolveFuel] at hfuel
        simp only [List.length_singleton]
        omega
      exact visitList_no_exhaust g V (maxOutdeg g V) (maxOutdeg_le g V)
        hclosed fuel [] [root] [] (by intro x hx; simp at hx)
        (by intro x hx; simp at hx)
        (by intro x hx; rw [List.mem_singleton.mp hx]; exact hroot) hF hres

/-- C2 witness: the spec's two-node scenario — node 0 imports node 1 and
node 1 imports node 0 — resolved with the sufficient fuel bound fails with
a circular-dependency error whose nonempty cycle path is a walk starting
and ending at the same node. -/
theorem resolver_detects_cycle_witness :
    ∃ p, resolve cycleDemoGraph 0 (resolveFuel cycleDemoGraph [0, 1])
        = .error (.circular p) ∧ p ≠ [] ∧
      p.head? = p.getLast? ∧ isWalk cycleDemoGraph p = true :=
  resolver_detects_cycle cycleDemoGraph [0, 1] 0
    (resolveFuel cycleDemoGraph [0, 1]) (by decide) (by decide) (le_refl _)
    ⟨0, [0, 1, 0], ReachF.refl 0, by decide, rfl, rfl, by decide⟩

end PAL
